import Mathlib

/-!
Verification of the green-taxi CSV cleaning pipeline (`01.py`).

The file embeds, as executable Lean definitions, the record normalizer
`read_green_taxi_csv` (header validation, blank-line skipping, and the
`PATTERN_DATA` leading-field extraction) and the typed columnar encoder
configured in `parse_green_taxi_csv` (schema, null/true/false token sets,
timestamp and decimal conversion).  Byte streams are modelled as lists of
lines, each line a `List Char` that still carries its terminator, exactly
as produced by line-wise reading of the input.  Theorems about the claims
of the specification follow the definitions.
-/

namespace GreenTaxi

/-- ASCII whitespace stripped by `bytes.rstrip()`. -/
def isWsChar (c : Char) : Bool :=
  c == ' ' || c == '\t' || c == '\n' || c == '\r' || c == '\x0b' || c == '\x0c'

/-- `bytes.rstrip()`: remove trailing ASCII whitespace. -/
def rstrip (l : List Char) : List Char :=
  (l.reverse.dropWhile isWsChar).reverse

/-- `str.split(sep)` for a single-character separator: the list of runs of
non-separator characters, empty runs included. -/
def splitOnChar (sep : Char) : List Char → List (List Char)
  | [] => [[]]
  | c :: r =>
    if c == sep then [] :: splitOnChar sep r
    else (c :: (splitOnChar sep r).headD []) :: (splitOnChar sep r).tail

/-- The expected header names, in order (`HEADER` in `01.py`). -/
def HEADER : List String :=
  [ "VendorID"
  , "lpep_pickup_datetime"
  , "Lpep_dropoff_datetime"
  , "Store_and_fwd_flag"
  , "RateCodeID"
  , "Pickup_longitude"
  , "Pickup_latitude"
  , "Dropoff_longitude"
  , "Dropoff_latitude"
  , "Passenger_count"
  , "Trip_distance"
  , "Fare_amount"
  , "Extra"
  , "MTA_tax"
  , "Tip_amount"
  , "Tolls_amount"
  , "Ehail_fee"
  , "Total_amount"
  , "Payment_type"
  , "Trip_type" ]

/-- `line.rstrip().decode(ENCODING).split(',') == HEADER`. -/
def headerLineOk (l : List Char) : Bool :=
  ((splitOnChar ',' (rstrip l)).map (fun f => String.mk f)) == HEADER

/-- One step of the regex `(?:[^,]*,)`: greedily consume non-comma
characters up to and including the next comma; fail when the line has no
further comma.  Returns the consumed characters and the remainder. -/
def takeUpToComma : List Char → Option (List Char × List Char)
  | [] => none
  | c :: r =>
    if c == ',' then some ([','], r)
    else (takeUpToComma r).map (fun pr => (c :: pr.1, pr.2))

/-- Characters allowed in the final field of `PATTERN_DATA`
(`[^,\r\n]`). -/
def notFieldEnd (c : Char) : Bool :=
  !(c == ',' || c == '\r' || c == '\n')

/-- The capture of `\A((?:[^,]*,){n}[^,\r\n]*)` on a line: `n` fields each
closed by its comma, then the longest run free of comma, carriage return
and line feed.  The regex is deterministic: each `[^,]*` must stop exactly
at the next comma, so the match is this recursion. -/
def matchGroups : Nat → List Char → Option (List Char)
  | 0, cs => some (cs.takeWhile notFieldEnd)
  | Nat.succ n, cs =>
    (takeUpToComma cs).bind fun pr => (matchGroups n pr.2).map (fun g => pr.1 ++ g)

/-- `PATTERN_DATA.match(line)`: the captured group, if the line matches. -/
def patternDataMatch (l : List Char) : Option (List Char) :=
  matchGroups (HEADER.length - 1) l

/-- Errors raised by the normalizer (`InvalidHeaderError`,
`InvalidDataError`), each carrying the raw offending line. -/
inductive ReadError
  | invalidHeader (line : List Char)
  | invalidData (line : List Char)
  deriving DecidableEq, Repr

/-- The `for line in fobj_src` loop of `read_green_taxi_csv`: match each
line against `PATTERN_DATA`, write the captured group followed by a single
newline, or raise `InvalidDataError` with the raw line. -/
def processData : List (List Char) → Except ReadError (List (List Char))
  | [] => .ok []
  | l :: ls =>
    match patternDataMatch l with
    | none => .error (.invalidData l)
    | some g => (processData ls).map (fun rest => (g ++ ['\n']) :: rest)

/-- The `while True` loop of `read_green_taxi_csv`: skip whitespace-only
lines after the header; stop with zero records at end of file (a read of
`b''`); otherwise rewind and hand the remaining lines to the data loop. -/
def skipBlankThenData : List (List Char) → Except ReadError (List (List Char))
  | [] => .ok []
  | l :: ls =>
    if rstrip l ≠ [] then processData (l :: ls)
    else if l = [] then .ok []
    else skipBlankThenData ls

/-- The lines the data loop actually sees: everything after the skipped
blank prefix (mirrors `skipBlankThenData` without processing them). -/
def dataSection : List (List Char) → List (List Char)
  | [] => []
  | l :: ls =>
    if rstrip l ≠ [] then l :: ls
    else if l = [] then []
    else dataSection ls

/-- `read_green_taxi_csv`, on an input already split into lines (each line
keeps its terminator, as `readline` produces): validate the header line,
skip blank lines, clean every data line.  The result is the list of lines
written to the sink. -/
def readGreenTaxiCsv (lines : List (List Char)) : Except ReadError (List (List Char)) :=
  let first := lines.headD []
  if headerLineOk first then skipBlankThenData lines.tail
  else .error (.invalidHeader first)

/-! ### Specification-side description of the cleaning step

`cleanSpec` renders the specification's wording for one data line: the
first 20 comma-separated fields — a field being a run of non-comma
characters, the 20th stopping at comma, carriage return, line feed or
end-of-line — joined by their commas, trailing extra fields discarded.
It is compared against `patternDataMatch`, the embedding of the source
regex. -/

/-- Characters at which the 20th field of the specification stops (other
than a comma, which the split already consumed). -/
def notCRLF (c : Char) : Bool :=
  !(c == '\r' || c == '\n')

/-- Join fields with commas. -/
def commaJoin : List (List Char) → List Char
  | [] => []
  | [f] => f
  | f :: g :: fs => f ++ ',' :: commaJoin (g :: fs)

/-- The specification's description of one cleaned line: if the line has
at least 20 comma-separated fields, keep the first 19 and the prefix of
the 20th up to a comma, carriage return, line feed or end-of-line. -/
def cleanSpec (l : List Char) : Option (List Char) :=
  let fs := splitOnChar ',' l
  if 20 ≤ fs.length then
    some (commaJoin (fs.take 19 ++ [(fs.getD 19 []).takeWhile notCRLF]))
  else none

/-- The exact header line of the reference file (the `HEADER` names joined
by commas, newline-terminated). -/
def headerText : String :=
  "VendorID,lpep_pickup_datetime,Lpep_dropoff_datetime,Store_and_fwd_flag,RateCodeID,Pickup_longitude,Pickup_latitude,Dropoff_longitude,Dropoff_latitude,Passenger_count,Trip_distance,Fare_amount,Extra,MTA_tax,Tip_amount,Tolls_amount,Ehail_fee,Total_amount,Payment_type,Trip_type\n"

/-! ### Digits and exact decimals

The conversion semantics of the encoder live in the CSV library that
`parse_green_taxi_csv` configures, not in the repository, so they are
modelled from the specification: decimals are exact base-10 scaled
integers reconstructed from the literal text, never binary floating
point. -/

def isDig (c : Char) : Bool :=
  c == '0' || c == '1' || c == '2' || c == '3' || c == '4' ||
  c == '5' || c == '6' || c == '7' || c == '8' || c == '9'

def digitVal (c : Char) : Nat := c.toNat - 48

def digitChar (n : Nat) : Char :=
  match n with
  | 0 => '0' | 1 => '1' | 2 => '2' | 3 => '3' | 4 => '4'
  | 5 => '5' | 6 => '6' | 7 => '7' | 8 => '8' | 9 => '9'
  | _ => '0'

/-- Value of a digit string, most significant digit first. -/
def digitsToNat : List Char → Nat
  | [] => 0
  | c :: r => digitVal c * 10 ^ r.length + digitsToNat r

/-- Canonical decimal digits of a natural number (no leading zeros). -/
def natToDigits (n : Nat) : List Char :=
  if h : n < 10 then [digitChar n]
  else natToDigits (n / 10) ++ [digitChar (n % 10)]
decreasing_by exact Nat.div_lt_self (by omega) (by omega)

def leftPadZeros (s : Nat) (l : List Char) : List Char :=
  List.replicate (s - l.length) '0' ++ l

/-- Modelled from the spec: `Decimal(p, s)` conversion (the CSV library's
decimal parsing is outside the repository).  The token is an optional
minus sign, integral digits, and optionally a point and at most `s`
fractional digits; the value is the exact scaled integer mantissa at
scale `s`.  Fails when the integral digit count would exceed `p - s`. -/
def parseDecimalToken (p s : Nat) (cs : List Char) : Option Int :=
  let neg : Bool := cs.headD ' ' == '-'
  let body : List Char := if neg then cs.tail else cs
  match splitOnChar '.' body with
  | [ip, fp] =>
    if ip ≠ [] ∧ ip.all isDig ∧ fp.all isDig ∧ fp.length ≤ s ∧
        digitsToNat ip < 10 ^ (p - s) then
      some ((if neg then -1 else 1) *
        ((digitsToNat ip * 10 ^ s + digitsToNat fp * 10 ^ (s - fp.length) : Nat) : Int))
    else none
  | [ip] =>
    if ip ≠ [] ∧ ip.all isDig ∧ digitsToNat ip < 10 ^ (p - s) then
      some ((if neg then -1 else 1) * ((digitsToNat ip * 10 ^ s : Nat) : Int))
    else none
  | _ => none

/-- Decode a scale-`s` mantissa back to its literal digit sequence. -/
def formatDecimal (s : Nat) (m : Int) : List Char :=
  (if m < 0 then ['-'] else []) ++
    natToDigits (m.natAbs / 10 ^ s) ++ '.' :: leftPadZeros s (natToDigits (m.natAbs % 10 ^ s))

/-! ### Timestamps

Modelled from the spec: tokens matching `YYYY-MM-DD HH:MM:SS` are wall
clock times in the America/New_York timezone, stored normalized to UTC at
second precision. -/

structure DateTime where
  year : Nat
  month : Nat
  day : Nat
  hour : Nat
  minute : Nat
  second : Nat
  deriving DecidableEq, Repr

def isLeapYear (y : Nat) : Bool :=
  y % 4 == 0 && (y % 100 != 0 || y % 400 == 0)

def daysInMonth (y m : Nat) : Nat :=
  if m = 2 then (if isLeapYear y then 29 else 28)
  else if m = 4 ∨ m = 6 ∨ m = 9 ∨ m = 11 then 30
  else 31

/-- Days since 1970-01-01 of a proleptic-Gregorian civil date. -/
def daysFromCivil (y m d : Int) : Int :=
  let y' := if m ≤ 2 then y - 1 else y
  let era := (if 0 ≤ y' then y' else y' - 399) / 400
  let yoe := y' - era * 400
  let mp := (m + 9) % 12
  let doy := (153 * mp + 2) / 5 + d - 1
  let doe := yoe * 365 + yoe / 4 - yoe / 100 + doy
  era * 146097 + doe - 719468

/-- Seconds since epoch of a wall-clock reading, taken naively (no
timezone applied). -/
def naiveSecs (t : DateTime) : Int :=
  daysFromCivil t.year t.month t.day * 86400 +
    t.hour * 3600 + t.minute * 60 + t.second

/-- Day of month of the `nth` Sunday (1-based) of month `m` in year `y`. -/
def nthSundayOfMonth (y m nth : Nat) : Int :=
  let d1 := daysFromCivil y m 1
  let w := (d1 + 4) % 7
  1 + (7 - w) % 7 + 7 * ((nth : Int) - 1)

/-- Naive local seconds at which daylight saving begins in year `y`
(second Sunday of March, 2:00). -/
def dstStartNaive (y : Nat) : Int :=
  (daysFromCivil y 3 1 + (nthSundayOfMonth y 3 2 - 1)) * 86400 + 2 * 3600

/-- Naive local seconds at which daylight saving ends in year `y`
(first Sunday of November, 2:00). -/
def dstEndNaive (y : Nat) : Int :=
  (daysFromCivil y 11 1 + (nthSundayOfMonth y 11 1 - 1)) * 86400 + 2 * 3600

/-- Modelled from the spec: whether a New York wall clock reading falls in
daylight saving time (US rule in force for the data's era). -/
def isNYDst (t : DateTime) : Bool :=
  dstStartNaive t.year ≤ naiveSecs t && naiveSecs t < dstEndNaive t.year

/-- UTC minus New York wall clock, in seconds (4 h during daylight saving,
5 h otherwise). -/
def nyOffsetSecs (t : DateTime) : Int :=
  if isNYDst t then 14400 else 18000

/-- Modelled from the spec: the UTC instant (seconds since epoch) at which
a New York wall clock shows `t`. -/
def utcOfNY (t : DateTime) : Int :=
  naiveSecs t + nyOffsetSecs t

def val2 (a b : Char) : Nat := digitVal a * 10 + digitVal b

def val4 (a b c d : Char) : Nat :=
  ((digitVal a * 10 + digitVal b) * 10 + digitVal c) * 10 + digitVal d

/-- Modelled from the spec: parse a token with pattern
`YYYY-MM-DD HH:MM:SS` into calendar fields, validating ranges. -/
def parseTsToken (cs : List Char) : Option DateTime :=
  match cs with
  | [y1, y2, y3, y4, q1, m1, m2, q2, d1, d2, q3, h1, h2, q4, i1, i2, q5, s1, s2] =>
    if q1 == '-' && q2 == '-' && q3 == ' ' && q4 == ':' && q5 == ':' &&
        isDig y1 && isDig y2 && isDig y3 && isDig y4 && isDig m1 && isDig m2 &&
        isDig d1 && isDig d2 && isDig h1 && isDig h2 && isDig i1 && isDig i2 &&
        isDig s1 && isDig s2 then
      let y := val4 y1 y2 y3 y4
      let mo := val2 m1 m2
      let da := val2 d1 d2
      let ho := val2 h1 h2
      let mi := val2 i1 i2
      let se := val2 s1 s2
      if 1 ≤ mo && mo ≤ 12 && 1 ≤ da && da ≤ daysInMonth y mo &&
          ho ≤ 23 && mi ≤ 59 && se ≤ 59 then
        some ⟨y, mo, da, ho, mi, se⟩
      else none
    else none
  | _ => none

def pad2 (n : Nat) : List Char :=
  [digitChar (n / 10 % 10), digitChar (n % 10)]

def pad4 (n : Nat) : List Char :=
  [digitChar (n / 1000 % 10), digitChar (n / 100 % 10),
   digitChar (n / 10 % 10), digitChar (n % 10)]

/-- Print calendar fields in the `YYYY-MM-DD HH:MM:SS` pattern. -/
def formatTs (y mo da ho mi se : Nat) : List Char :=
  pad4 y ++ '-' :: (pad2 mo ++ '-' :: (pad2 da ++ ' ' ::
    (pad2 ho ++ ':' :: (pad2 mi ++ ':' :: pad2 se))))

/-! ### The typed columnar encoder -/

/-- Modelled from the spec: base-10 integer token, optional minus sign. -/
def parseIntToken (cs : List Char) : Option Int :=
  match cs with
  | '-' :: r => if r ≠ [] ∧ r.all isDig then some (-((digitsToNat r : Nat) : Int)) else none
  | _ => if cs ≠ [] ∧ cs.all isDig then some (((digitsToNat cs : Nat) : Int)) else none

/-- The closed variant of logical column types. -/
inductive LType
  | smallint
  | timestampLocal
  | boolType
  | decimalType (p s : Nat)
  deriving DecidableEq, Repr

/-- A typed cell value. -/
inductive Value
  | intV (i : Int)
  | tsV (u : Int)
  | boolV (b : Bool)
  | decV (m : Int)
  deriving DecidableEq, Repr

/-- `SCHEMA` from `01.py`: ordered column names and logical types.  The
precisions and scales are those of `DECIMAL_LON`, `DECIMAL_LAT`,
`DECIMAL_DISTANCE` and `DECIMAL_DOLLAR`. -/
def SCHEMA : List (String × LType) :=
  [ ("VendorID", .smallint)
  , ("lpep_pickup_datetime", .timestampLocal)
  , ("lpep_dropoff_datetime", .timestampLocal)
  , ("Store_and_fwd_flag", .boolType)
  , ("RateCodeID", .smallint)
  , ("Pickup_longitude", .decimalType 18 15)
  , ("Pickup_latitude", .decimalType 17 15)
  , ("Dropoff_longitude", .decimalType 18 15)
  , ("Dropoff_latitude", .decimalType 17 15)
  , ("Passenger_count", .smallint)
  , ("Trip_distance", .decimalType 4 2)
  , ("Fare_amount", .decimalType 6 2)
  , ("Extra", .decimalType 6 2)
  , ("MTA_tax", .decimalType 6 2)
  , ("Tip_amount", .decimalType 6 2)
  , ("Tolls_amount", .decimalType 6 2)
  , ("Ehail_fee", .decimalType 6 2)
  , ("Total_amount", .decimalType 6 2)
  , ("Payment_type", .smallint)
  , ("Trip_type", .smallint) ]

/-- Modelled from the spec: convert one token per its column's logical
type, with the token sets configured in `parse_green_taxi_csv`
(`null_values=['']`, `true_values=['Y']`, `false_values=['N']`).  `none`
is a conversion failure. -/
def convertCell (t : LType) (tok : List Char) : Option (Option Value) :=
  if tok = [] then some none
  else
    match t with
    | .boolType =>
      if tok = ['Y'] then some (some (.boolV true))
      else if tok = ['N'] then some (some (.boolV false))
      else none
    | .smallint =>
      match parseIntToken tok with
      | some v => if -32768 ≤ v ∧ v ≤ 32767 then some (some (.intV v)) else none
      | none => none
    | .timestampLocal =>
      match parseTsToken tok with
      | some f => some (some (.tsV (utcOfNY f)))
      | none => none
    | .decimalType p s =>
      match parseDecimalToken p s tok with
      | some m => some (some (.decV m))
      | none => none

/-- Errors of the encoder: a row with the wrong field count, or a cell
that cannot be converted (carrying column name, row index and raw
token). -/
inductive ParseError
  | wrongFieldCount (row : Nat) (line : List Char)
  | conversionError (column : String) (row : Nat) (token : List Char)
  deriving DecidableEq, Repr

/-- Convert the cells of one record against the schema, reporting the
first failing column. -/
def encodeCells (row : Nat) : List (String × LType) → List (List Char) →
    Except ParseError (List (Option Value))
  | [], [] => .ok []
  | (nm, t) :: sch, tok :: toks =>
    match convertCell t tok with
    | none => .error (.conversionError nm row tok)
    | some v => (encodeCells row sch toks).map (fun rest => v :: rest)
  | _, _ => .error (.wrongFieldCount row [])

/-- Strip the single trailing newline of a cleaned line. -/
def dropTrailingNl (l : List Char) : List Char :=
  if l.getLast? = some '\n' then l.dropLast else l

/-- Parse one cleaned line as a comma-separated record with no quoting
support and exactly one field per schema column. -/
def encodeRow (row : Nat) (line : List Char) : Except ParseError (List (Option Value)) :=
  let toks := splitOnChar ',' (dropTrailingNl line)
  if toks.length = SCHEMA.length then encodeCells row SCHEMA toks
  else .error (.wrongFieldCount row line)

def encodeAllRows (row : Nat) : List (List Char) → Except ParseError (List (List (Option Value)))
  | [] => .ok []
  | l :: ls =>
    match encodeRow row l with
    | .error e => .error e
    | .ok r => (encodeAllRows (row + 1) ls).map (fun rest => r :: rest)

/-- The produced table: column names (schema order) and typed rows. -/
structure ColumnarTable where
  names : List String
  rows : List (List (Option Value))
  deriving DecidableEq, Repr

/-- `parse_green_taxi_csv`: encode the cleaned lines against `SCHEMA`;
the column names are `SCHEMA.names` (`ReadOptions(column_names=...)`),
not read from the data. -/
def parseGreenTaxiCsv (cleaned : List (List Char)) : Except ParseError ColumnarTable :=
  (encodeAllRows 0 cleaned).map (fun rs => ⟨SCHEMA.map Prod.fst, rs⟩)

/-- An error of either stage of the pipeline. -/
inductive PipeError
  | readErr (e : ReadError)
  | parseErr (e : ParseError)
  deriving DecidableEq, Repr

/-- `main`'s data path: normalize into a buffer, then encode the buffer;
any exception aborts before a table exists. -/
def runPipeline (lines : List (List Char)) : Except PipeError ColumnarTable :=
  match readGreenTaxiCsv lines with
  | .error e => .error (.readErr e)
  | .ok cleaned =>
    match parseGreenTaxiCsv cleaned with
    | .error e => .error (.parseErr e)
    | .ok t => .ok t

/-- A cell value conforms to its column's logical type (null always
conforms; integers are in 16-bit signed range; decimal mantissas fit the
declared precision). -/
def wellTyped : LType → Option Value → Prop
  | _, none => True
  | .smallint, some v => ∃ i, v = .intV i ∧ -32768 ≤ i ∧ i ≤ 32767
  | .timestampLocal, some v => ∃ u, v = .tsV u
  | .boolType, some v => ∃ b, v = .boolV b
  | .decimalType p _, some v => ∃ m, v = .decV m ∧ m.natAbs < 10 ^ p

/-! ### Splitting lemmas -/

theorem splitOnChar_ne_nil (sep : Char) (l : List Char) : splitOnChar sep l ≠ [] := by
  cases l with
  | nil => simp [splitOnChar]
  | cons c r =>
    simp only [splitOnChar]
    split <;> simp

theorem splitOnChar_cons_of_ne {sep c : Char} (r : List Char) (h : (c == sep) = false) :
    splitOnChar sep (c :: r) =
      (c :: (splitOnChar sep r).headD []) :: (splitOnChar sep r).tail := by
  simp [splitOnChar, h]

theorem splitOnChar_of_not_mem {sep : Char} {l : List Char} (h : sep ∉ l) :
    splitOnChar sep l = [l] := by
  induction l with
  | nil => rfl
  | cons c r ih =>
    simp only [List.mem_cons, not_or] at h
    have hc : (c == sep) = false := beq_eq_false_iff_ne.mpr (fun hcs => h.1 hcs.symm)
    have hr : splitOnChar sep r = [r] := ih h.2
    rw [splitOnChar_cons_of_ne r hc, hr]
    rfl

theorem splitOnChar_append_sep {sep : Char} {a : List Char} (rest : List Char) (h : sep ∉ a) :
    splitOnChar sep (a ++ sep :: rest) = a :: splitOnChar sep rest := by
  induction a with
  | nil => simp [splitOnChar]
  | cons c a' ih =>
    simp only [List.mem_cons, not_or] at h
    have hc : (c == sep) = false := beq_eq_false_iff_ne.mpr (fun hcs => h.1 hcs.symm)
    rw [List.cons_append, splitOnChar_cons_of_ne _ hc, ih h.2]
    rfl

theorem not_mem_of_mem_splitOnChar {sep : Char} {l f : List Char}
    (hf : f ∈ splitOnChar sep l) : sep ∉ f := by
  induction l generalizing f with
  | nil =>
    simp only [splitOnChar, List.mem_singleton] at hf
    subst hf; simp
  | cons c r ih =>
    by_cases hc : c = sep
    · subst hc
      rw [show splitOnChar c (c :: r) = [] :: splitOnChar c r from by
        simp [splitOnChar]] at hf
      rcases List.mem_cons.mp hf with hf | hf
      · subst hf; simp
      · exact ih hf
    · have hc' : (c == sep) = false := beq_eq_false_iff_ne.mpr hc
      rw [splitOnChar_cons_of_ne r hc'] at hf
      rcases List.exists_cons_of_ne_nil (splitOnChar_ne_nil sep r) with ⟨f0, fs, hsp⟩
      rw [hsp] at hf
      simp only [List.headD_cons, List.tail_cons, List.mem_cons] at hf
      rcases hf with hf | hf
      · subst hf
        have hf0 : sep ∉ f0 := ih (by rw [hsp]; exact List.mem_cons_self _ _)
        intro hmem
        rcases List.mem_cons.mp hmem with h1 | h2
        · exact hc h1.symm
        · exact hf0 h2
      · exact ih (by rw [hsp]; exact List.mem_cons_of_mem _ hf)

theorem takeUpToComma_eq_none_iff {l : List Char} : takeUpToComma l = none ↔ ',' ∉ l := by
  induction l with
  | nil => simp [takeUpToComma]
  | cons c r ih =>
    by_cases hc : c = ','
    · subst hc
      simp [takeUpToComma]
    · have hc' : (c == ',') = false := beq_eq_false_iff_ne.mpr hc
      rw [show takeUpToComma (c :: r) =
            Option.map (fun pr => (c :: pr.1, pr.2)) (takeUpToComma r) from by
          simp [takeUpToComma, hc']]
      rw [Option.map_eq_none', ih]
      constructor
      · intro h hmem
        rcases List.mem_cons.mp hmem with h1 | h2
        · exact hc h1.symm
        · exact h h2
      · intro h hmem
        exact h (List.mem_cons_of_mem _ hmem)

theorem takeUpToComma_some {l : List Char} {pre post : List Char}
    (h : takeUpToComma l = some (pre, post)) :
    ∃ a, ',' ∉ a ∧ pre = a ++ [','] ∧ l = a ++ ',' :: post := by
  induction l generalizing pre post with
  | nil => simp [takeUpToComma] at h
  | cons c r ih =>
    by_cases hc : c = ','
    · subst hc
      rw [show takeUpToComma (',' :: r) = some ([','], r) from by simp [takeUpToComma]] at h
      rcases Option.some.inj h with heq
      refine ⟨[], by simp, ?_, ?_⟩
      · rw [← (Prod.mk.injEq _ _ _ _).mp heq |>.1]; rfl
      · rw [← (Prod.mk.injEq _ _ _ _).mp heq |>.2]; rfl
    · have hc' : (c == ',') = false := beq_eq_false_iff_ne.mpr hc
      rw [show takeUpToComma (c :: r) =
            Option.map (fun pr => (c :: pr.1, pr.2)) (takeUpToComma r) from by
          simp [takeUpToComma, hc']] at h
      rw [Option.map_eq_some'] at h
      rcases h with ⟨⟨pre', post'⟩, hr, heq⟩
      rcases ih hr with ⟨a, hna, hpre, hl⟩
      simp only [Prod.mk.injEq] at heq
      refine ⟨c :: a, ?_, ?_, ?_⟩
      · intro hmem
        rcases List.mem_cons.mp hmem with h1 | h2
        · exact hc h1.symm
        · exact hna h2
      · rw [← heq.1, hpre]; rfl
      · rw [← heq.2, hl]; rfl

/-- The run up to the first comma is not changed by first splitting:
`takeWhile` through the head field of the comma split. -/
theorem takeWhile_headD_splitOnChar (l : List Char) :
    l.takeWhile notFieldEnd = ((splitOnChar ',' l).headD []).takeWhile notFieldEnd := by
  induction l with
  | nil => rfl
  | cons c r ih =>
    by_cases hc : c = ','
    · subst hc
      simp [splitOnChar, List.takeWhile, notFieldEnd]
    · have hc' : (c == ',') = false := beq_eq_false_iff_ne.mpr hc
      rw [splitOnChar_cons_of_ne r hc']
      simp only [List.headD_cons]
      by_cases hfe : notFieldEnd c = true
      · simp only [List.takeWhile_cons, hfe, if_pos]
        rw [ih]
      · simp [List.takeWhile_cons, eq_false_of_ne_true hfe]

theorem takeWhile_notFieldEnd_of_no_comma {f : List Char} (h : ',' ∉ f) :
    f.takeWhile notFieldEnd = f.takeWhile notCRLF := by
  induction f with
  | nil => rfl
  | cons c r ih =>
    simp only [List.mem_cons, not_or] at h
    have hc : (c == ',') = false := beq_eq_false_iff_ne.mpr (fun hcs => h.1 hcs.symm)
    simp [List.takeWhile_cons, notFieldEnd, notCRLF, hc, ih h.2]

theorem commaJoin_cons {f : List Char} {fs : List (List Char)} (h : fs ≠ []) :
    commaJoin (f :: fs) = f ++ ',' :: commaJoin fs := by
  rcases List.exists_cons_of_ne_nil h with ⟨g, gs, rfl⟩
  rfl

/-- The regex capture, expressed through the comma split of the line:
`matchGroups n` succeeds exactly when the line has at least `n + 1`
comma-separated fields, and then captures the first `n` fields with their
commas followed by the prefix of field `n` free of comma, carriage return
and line feed. -/
theorem matchGroups_eq_split (n : Nat) (l : List Char) :
    matchGroups n l =
      if n + 1 ≤ (splitOnChar ',' l).length then
        some (commaJoin ((splitOnChar ',' l).take n ++
          [((splitOnChar ',' l).getD n []).takeWhile notFieldEnd]))
      else none := by
  induction n generalizing l with
  | zero =>
    rcases List.exists_cons_of_ne_nil (splitOnChar_ne_nil ',' l) with ⟨f0, fs, hsp⟩
    have hlen : 0 + 1 ≤ (splitOnChar ',' l).length := by simp [hsp]
    rw [if_pos hlen]
    simp only [List.take_zero, List.nil_append, hsp, List.getD_cons_zero]
    have hj : commaJoin [List.takeWhile notFieldEnd f0] = List.takeWhile notFieldEnd f0 := rfl
    rw [hj]
    show some (List.takeWhile notFieldEnd l) = some (List.takeWhile notFieldEnd f0)
    rw [takeWhile_headD_splitOnChar l, hsp]
    rfl
  | succ n ih =>
    cases htc : takeUpToComma l with
    | none =>
      have hno : ',' ∉ l := takeUpToComma_eq_none_iff.mp htc
      rw [splitOnChar_of_not_mem hno]
      simp [matchGroups, htc]
    | some pr =>
      rcases takeUpToComma_some htc with ⟨a, hna, hpre, hl⟩
      rcases pr with ⟨pre, post⟩
      simp only at hpre hl
      subst hpre hl
      rw [splitOnChar_append_sep post hna]
      simp only [matchGroups, htc, Option.some_bind]
      rw [ih post]
      by_cases h : n + 1 ≤ (splitOnChar ',' post).length
      · rw [if_pos h, if_pos (by simpa using Nat.succ_le_succ h)]
        simp only [Option.map_some', Option.some.injEq]
        rw [List.take_succ_cons, List.getD_cons_succ]
        rw [List.cons_append, commaJoin_cons (by simp)]
        simp
      · rw [if_neg h, if_neg (by
          intro hh
          exact h (by simpa using Nat.le_of_succ_le_succ (by simpa using hh)))]
        simp

/-- `PATTERN_DATA` agrees with the specification's field-wise description
of the cleaning of one data line. -/
theorem patternDataMatch_eq_cleanSpec (l : List Char) :
    patternDataMatch l = cleanSpec l := by
  have h19 : HEADER.length - 1 = 19 := rfl
  rw [patternDataMatch, h19, matchGroups_eq_split, cleanSpec]
  by_cases h : 20 ≤ (splitOnChar ',' l).length
  · rw [if_pos (by omega : 19 + 1 ≤ (splitOnChar ',' l).length), if_pos h]
    have h19' : 19 < (splitOnChar ',' l).length := by omega
    have hmem : (splitOnChar ',' l).getD 19 [] ∈ splitOnChar ',' l := by
      rw [List.getD_eq_getElem?_getD, List.getElem?_eq_getElem h19']
      simp only [Option.getD_some]
      exact List.getElem_mem h19'
    have hnc : ',' ∉ (splitOnChar ',' l).getD 19 [] := not_mem_of_mem_splitOnChar hmem
    rw [takeWhile_notFieldEnd_of_no_comma hnc]
  · rw [if_neg (by omega : ¬ 19 + 1 ≤ (splitOnChar ',' l).length), if_neg h]

/-! ### Stream-level lemmas for the normalizer -/

theorem skipBlankThenData_eq_processData (ls : List (List Char)) :
    skipBlankThenData ls = processData (dataSection ls) := by
  induction ls with
  | nil => rfl
  | cons l ls ih =>
    by_cases h1 : rstrip l ≠ []
    · simp [skipBlankThenData, dataSection, h1]
    · by_cases h2 : l = []
      · subst h2; rfl
      · simp [skipBlankThenData, dataSection, h1, h2, ih]

theorem processData_ok {ls out : List (List Char)} (h : processData ls = .ok out) :
    List.Forall₂ (fun raw c => ∃ g, patternDataMatch raw = some g ∧ c = g ++ ['\n'])
      ls out := by
  induction ls generalizing out with
  | nil =>
    simp only [processData, Except.ok.injEq] at h
    subst h
    exact List.Forall₂.nil
  | cons l ls ih =>
    simp only [processData] at h
    cases hm : patternDataMatch l with
    | none => rw [hm] at h; exact absurd h (by simp)
    | some g =>
      rw [hm] at h
      cases hr : processData ls with
      | error e => rw [hr] at h; simp [Except.map] at h
      | ok rest =>
        rw [hr] at h
        simp only [Except.map, Except.ok.injEq] at h
        subst h
        exact List.Forall₂.cons ⟨g, hm, rfl⟩ (ih hr)

/-- C1: For every data line after a valid header, normalization
(`read_green_taxi_csv`) writes to the sink exactly the line's first 20
comma-separated fields — a field being a run of non-comma characters,
with the 20th field stopping at a comma, carriage return, line feed, or
end-of-line — with their separating commas preserved, any trailing extra
fields discarded, followed by a single newline; exactly one cleaned line
per non-blank data line, in input order. -/
theorem C1_clean_lines (lines out : List (List Char))
    (h : readGreenTaxiCsv lines = .ok out) :
    List.Forall₂ (fun raw c => ∃ g, cleanSpec raw = some g ∧ c = g ++ ['\n'])
      (dataSection lines.tail) out := by
  simp only [readGreenTaxiCsv] at h
  by_cases hh : headerLineOk (lines.headD []) = true
  · rw [if_pos hh, skipBlankThenData_eq_processData] at h
    exact (processData_ok h).imp fun a b hrc => by
      rcases hrc with ⟨g, hg, hc⟩
      exact ⟨g, by rw [← patternDataMatch_eq_cleanSpec]; exact hg, hc⟩
  · rw [if_neg hh] at h
    exact absurd h (by simp)

theorem C1_clean_lines_witness :
    List.Forall₂ (fun raw c => ∃ g, cleanSpec raw = some g ∧ c = g ++ ['\n'])
      (dataSection ([headerText.toList,
        "2,2013-09-01 00:02:00,2013-09-01 00:54:51,N,1,0,0,-73.952407836914062,40.810729980468750,5,.00,280,0,0.50,0,0,,280.50,1,,,,\n".toList]).tail)
      ["2,2013-09-01 00:02:00,2013-09-01 00:54:51,N,1,0,0,-73.952407836914062,40.810729980468750,5,.00,280,0,0.50,0,0,,280.50,1,\n".toList] :=
  C1_clean_lines _ _ (by rfl)

/-- C2: For every input whose first line, after stripping trailing
whitespace and splitting on commas, differs from the expected 20-element
header in any way, normalization fails with `InvalidHeader` carrying the
raw first line, consumes no further input lines (the result does not
depend on them), and writes nothing to the sink. -/
theorem C2_invalid_header (l : List Char) (rest : List (List Char))
    (h : (splitOnChar ',' (rstrip l)).map (fun f => String.mk f) ≠ HEADER) :
    readGreenTaxiCsv (l :: rest) = .error (.invalidHeader l) := by
  have hok : headerLineOk l = false := by
    simp only [headerLineOk]
    exact beq_eq_false_iff_ne.mpr h
  simp [readGreenTaxiCsv, hok]

theorem C2_invalid_header_witness :
    readGreenTaxiCsv ["vendorid,lpep_pickup_datetime,Lpep_dropoff_datetime,Store_and_fwd_flag,RateCodeID,Pickup_longitude,Pickup_latitude,Dropoff_longitude,Dropoff_latitude,Passenger_count,Trip_distance,Fare_amount,Extra,MTA_tax,Tip_amount,Tolls_amount,Ehail_fee,Total_amount,Payment_type,Trip_type\n".toList,
      "2,2013-09-01 00:02:00,2013-09-01 00:54:51,N,1,0,0,0,0,5,.00,280,0,0.50,0,0,,280.50,1,1\n".toList] =
      .error (.invalidHeader "vendorid,lpep_pickup_datetime,Lpep_dropoff_datetime,Store_and_fwd_flag,RateCodeID,Pickup_longitude,Pickup_latitude,Dropoff_longitude,Dropoff_latitude,Passenger_count,Trip_distance,Fare_amount,Extra,MTA_tax,Tip_amount,Tolls_amount,Ehail_fee,Total_amount,Payment_type,Trip_type\n".toList) :=
  C2_invalid_header _ _ (by decide)

/-! ### Blank lines, short lines -/

theorem all_ws_of_rstrip_eq_nil {l : List Char} (h : rstrip l = []) :
    ∀ c ∈ l, isWsChar c = true := by
  intro c hc
  have h1 : l.reverse.dropWhile isWsChar = [] := by
    have := congrArg List.reverse h
    simpa [rstrip] using this
  have h2 := List.dropWhile_eq_nil_iff.mp h1
  exact h2 c (List.mem_reverse.mpr hc)

theorem comma_not_mem_of_rstrip_eq_nil {l : List Char} (h : rstrip l = []) :
    ',' ∉ l := by
  intro hmem
  have := all_ws_of_rstrip_eq_nil h ',' hmem
  simp [isWsChar] at this

theorem rstrip_ne_nil_of_comma_mem {l : List Char} (h : ',' ∈ l) :
    rstrip l ≠ [] := by
  intro hnil
  exact comma_not_mem_of_rstrip_eq_nil hnil h

theorem comma_mem_of_two_le_split {l : List Char}
    (h : 2 ≤ (splitOnChar ',' l).length) : ',' ∈ l := by
  by_contra hno
  rw [splitOnChar_of_not_mem hno] at h
  simp at h

theorem patternDataMatch_eq_none_of_short {l : List Char}
    (h : (splitOnChar ',' l).length < 20) : patternDataMatch l = none := by
  rw [patternDataMatch_eq_cleanSpec, cleanSpec]
  rw [if_neg (by omega)]

theorem processData_reaches_bad (good : List (List Char)) (bad : List Char)
    (rest : List (List Char))
    (hg : ∀ g ∈ good, 20 ≤ (splitOnChar ',' g).length)
    (hbad : (splitOnChar ',' bad).length < 20) :
    processData (good ++ bad :: rest) = .error (.invalidData bad) := by
  induction good with
  | nil =>
    simp only [List.nil_append, processData, patternDataMatch_eq_none_of_short hbad]
  | cons g good' ih =>
    have hgm : ∃ c, patternDataMatch g = some c := by
      rw [patternDataMatch_eq_cleanSpec, cleanSpec]
      rw [if_pos (hg g (List.mem_cons_self _ _))]
      exact ⟨_, rfl⟩
    rcases hgm with ⟨c, hc⟩
    have ihr := ih (fun x hx => hg x (List.mem_cons_of_mem _ hx))
    simp only [List.cons_append, processData, hc]
    rw [show processData (good'.append (bad :: rest)) = .error (.invalidData bad) from ihr]
    rfl

theorem skipBlankThenData_append_blanks {blanks : List (List Char)}
    (tl : List (List Char)) (hb : ∀ b ∈ blanks, rstrip b = [] ∧ b ≠ []) :
    skipBlankThenData (blanks ++ tl) = skipBlankThenData tl := by
  induction blanks with
  | nil => rfl
  | cons b blanks' ih =>
    have hbb := hb b (List.mem_cons_self _ _)
    simp only [List.cons_append, skipBlankThenData, hbb.1, hbb.2]
    simp only [ne_eq, not_true_eq_false, if_false, if_neg hbb.2]
    exact ih (fun x hx => hb x (List.mem_cons_of_mem _ hx))

/-- C3: For every data line that has fewer than 20 fields before its line
terminator, normalization fails with `InvalidData` carrying the raw line,
and no further lines are processed or written; in particular a line with
only 18 of the required 20 fields aborts the run with zero rows
produced. -/
theorem C3_too_few_fields (hdr : List Char) (blanks good : List (List Char))
    (bad : List Char) (rest : List (List Char))
    (hh : headerLineOk hdr = true)
    (hb : ∀ b ∈ blanks, rstrip b = [] ∧ b ≠ [])
    (hg : ∀ g ∈ good, 20 ≤ (splitOnChar ',' g).length)
    (hbad : (splitOnChar ',' bad).length < 20)
    (hfirst : good = [] → rstrip bad ≠ []) :
    readGreenTaxiCsv (hdr :: (blanks ++ (good ++ bad :: rest))) =
      .error (.invalidData bad) := by
  simp only [readGreenTaxiCsv, List.headD_cons, List.tail_cons]
  rw [if_pos hh, skipBlankThenData_append_blanks _ hb]
  cases good with
  | nil =>
    have hr := hfirst rfl
    simp only [List.nil_append, skipBlankThenData]
    rw [if_pos hr]
    exact processData_reaches_bad [] bad rest (by simp) hbad
  | cons g good' =>
    have hcm : ',' ∈ g :=
      comma_mem_of_two_le_split (by have := hg g (List.mem_cons_self _ _); omega)
    have hrg : rstrip g ≠ [] := rstrip_ne_nil_of_comma_mem hcm
    simp only [List.cons_append, skipBlankThenData]
    rw [if_pos hrg]
    exact processData_reaches_bad (g :: good') bad rest hg hbad

theorem C3_too_few_fields_witness :
    readGreenTaxiCsv (headerText.toList :: (["\n".toList] ++ ([] ++
        ["2,2013-09-01 00:02:00,2013-09-01 00:54:51,N,1,0,0,0,0,5,.00,280,0,0.50,0,0,,280.50\n".toList] ++
        ["2,2013-09-01 09:00:00,2013-09-01 09:10:00,N,1,0,0,0,0,1,.50,5,0,0.50,0,0,,5.50,1,1\n".toList]))) =
      .error (.invalidData
        "2,2013-09-01 00:02:00,2013-09-01 00:54:51,N,1,0,0,0,0,5,.00,280,0,0.50,0,0,,280.50\n".toList) :=
  C3_too_few_fields _ _ [] _ _ (by decide) (by decide) (by simp) (by decide) (by decide)

/-- C9: Blank-line skipping applies only between the header and the first
non-blank data line: a whitespace-only line occurring after the first
non-blank data line is not skipped; normalization fails with
`InvalidDataError` carrying it (such a line cannot match the 20-field
extraction pattern). -/
theorem C9_blank_line_mid_data (hdr : List Char) (blanks : List (List Char))
    (g : List Char) (good : List (List Char)) (w : List Char)
    (rest : List (List Char))
    (hh : headerLineOk hdr = true)
    (hb : ∀ b ∈ blanks, rstrip b = [] ∧ b ≠ [])
    (hg : ∀ x ∈ g :: good, 20 ≤ (splitOnChar ',' x).length)
    (hw : rstrip w = []) :
    readGreenTaxiCsv (hdr :: (blanks ++ ((g :: good) ++ w :: rest))) =
      .error (.invalidData w) := by
  have hwshort : (splitOnChar ',' w).length < 20 := by
    rw [splitOnChar_of_not_mem (comma_not_mem_of_rstrip_eq_nil hw)]
    simp
  simp only [readGreenTaxiCsv, List.headD_cons, List.tail_cons]
  rw [if_pos hh, skipBlankThenData_append_blanks _ hb]
  have hcm : ',' ∈ g :=
    comma_mem_of_two_le_split (by have := hg g (List.mem_cons_self _ _); omega)
  have hrg : rstrip g ≠ [] := rstrip_ne_nil_of_comma_mem hcm
  simp only [List.cons_append, skipBlankThenData]
  rw [if_pos hrg]
  exact processData_reaches_bad (g :: good) w rest hg hwshort

theorem C9_blank_line_mid_data_witness :
    readGreenTaxiCsv (headerText.toList :: ([] ++
        (["2,2013-09-01 00:02:00,2013-09-01 00:54:51,N,1,0,0,0,0,5,.00,280,0,0.50,0,0,,280.50,1,1\n".toList] ++
          " \n".toList :: ["2,2013-09-01 09:00:00,2013-09-01 09:10:00,N,1,0,0,0,0,1,.50,5,0,0.50,0,0,,5.50,1,1\n".toList]))) =
      .error (.invalidData " \n".toList) :=
  C9_blank_line_mid_data _ _ _ [] _ _ (by decide) (by simp) (by decide) (by decide)

/-! ### Idempotence of the extraction -/

theorem takeUpToComma_append {a : List Char} (X : List Char) (h : ',' ∉ a) :
    takeUpToComma (a ++ ',' :: X) = some (a ++ [','], X) := by
  induction a with
  | nil => simp [takeUpToComma]
  | cons c a' ih =>
    simp only [List.mem_cons, not_or] at h
    have hc : (c == ',') = false := beq_eq_false_iff_ne.mpr (fun hcs => h.1 hcs.symm)
    have ihr := ih h.2
    simp only [List.cons_append, takeUpToComma, hc, Bool.false_eq_true, if_false]
    rw [show takeUpToComma (a'.append (',' :: X)) = some (a' ++ [','], X) from ihr]
    rfl

theorem matchGroups_fixpoint (n : Nat) :
    ∀ {cs g : List Char}, matchGroups n cs = some g →
      matchGroups n (g ++ ['\n']) = some g := by
  induction n with
  | zero =>
    intro cs g h
    simp only [matchGroups, Option.some.injEq] at h ⊢
    subst h
    rw [List.takeWhile_append_of_pos (fun a ha => List.mem_takeWhile_imp ha)]
    simp [List.takeWhile, notFieldEnd]
  | succ n ih =>
    intro cs g h
    simp only [matchGroups] at h ⊢
    cases htc : takeUpToComma cs with
    | none => rw [htc] at h; simp at h
    | some pr =>
      rw [htc] at h
      rcases pr with ⟨pre, post⟩
      simp only [Option.some_bind, Option.map_eq_some'] at h
      rcases h with ⟨g', hg', rfl⟩
      rcases takeUpToComma_some htc with ⟨a, hna, hpre, hcs⟩
      subst hpre
      rw [show (a ++ [','] ++ g') ++ ['\n'] = a ++ ',' :: (g' ++ ['\n']) from by simp]
      rw [takeUpToComma_append _ hna]
      simp only [Option.some_bind]
      rw [ih hg']
      simp

theorem patternDataMatch_fixpoint {cs g : List Char}
    (h : patternDataMatch cs = some g) :
    patternDataMatch (g ++ ['\n']) = some g :=
  matchGroups_fixpoint _ h

theorem comma_mem_matchGroups_succ {n : Nat} {raw g : List Char}
    (h : matchGroups (n + 1) raw = some g) : ',' ∈ g := by
  simp only [matchGroups] at h
  cases htc : takeUpToComma raw with
  | none => rw [htc] at h; simp at h
  | some pr =>
    rw [htc] at h
    rcases pr with ⟨pre, post⟩
    simp only [Option.some_bind, Option.map_eq_some'] at h
    rcases h with ⟨g', hg', rfl⟩
    rcases takeUpToComma_some htc with ⟨a, hna, hpre, hraw⟩
    subst hpre
    simp

theorem comma_mem_patternDataMatch {raw g : List Char}
    (h : patternDataMatch raw = some g) : ',' ∈ g := by
  rw [patternDataMatch, show HEADER.length - 1 = 18 + 1 from rfl] at h
  exact comma_mem_matchGroups_succ h

theorem processData_fixpoint {ls out : List (List Char)}
    (h : processData ls = .ok out) : processData out = .ok out := by
  induction ls generalizing out with
  | nil =>
    simp only [processData, Except.ok.injEq] at h
    subst h; rfl
  | cons l ls ih =>
    simp only [processData] at h
    cases hm : patternDataMatch l with
    | none => rw [hm] at h; simp at h
    | some g =>
      rw [hm] at h
      cases hr : processData ls with
      | error e => rw [hr] at h; simp [Except.map] at h
      | ok rest =>
        rw [hr] at h
        simp only [Except.map, Except.ok.injEq] at h
        subst h
        simp only [processData, patternDataMatch_fixpoint hm]
        rw [ih hr]
        rfl

theorem matchGroups_commaJoin (n : Nat) :
    ∀ fields : List (List Char), fields.length = n + 1 →
      (∀ f ∈ fields, ',' ∉ f ∧ '\n' ∉ f) →
      (∀ c ∈ fields.getD n [], c ≠ '\r') →
      matchGroups n (commaJoin fields ++ ['\n']) = some (commaJoin fields) := by
  induction n with
  | zero =>
    intro fields hlen hfs hlast
    rcases List.length_eq_one.mp hlen with ⟨f, rfl⟩
    have hj : commaJoin [f] = f := rfl
    rw [hj]
    simp only [matchGroups, Option.some.injEq]
    rw [List.takeWhile_append_of_pos (fun c hc => by
      have h1 := (hfs f (List.mem_cons_self _ _)).1
      have h2 := (hfs f (List.mem_cons_self _ _)).2
      have h3 := hlast c (by simpa using hc)
      simp only [notFieldEnd, Bool.not_eq_true']
      have hc1 : c ≠ ',' := fun hh => h1 (hh ▸ hc)
      have hc2 : c ≠ '\n' := fun hh => h2 (hh ▸ hc)
      simp [hc1, hc2, h3])]
    simp [List.takeWhile, notFieldEnd]
  | succ n ih =>
    intro fields hlen hfs hlast
    rcases fields with _ | ⟨f, fields'⟩
    · simp at hlen
    · have hlen' : fields'.length = n + 1 := by simpa using hlen
      have hne : fields' ≠ [] := by
        intro hh; rw [hh] at hlen'; simp at hlen'
      rw [commaJoin_cons hne]
      have hf := hfs f (List.mem_cons_self _ _)
      rw [show (f ++ ',' :: commaJoin fields') ++ ['\n'] =
          f ++ ',' :: (commaJoin fields' ++ ['\n']) from by simp]
      simp only [matchGroups]
      rw [takeUpToComma_append _ hf.1]
      simp only [Option.some_bind]
      rw [ih fields' hlen' (fun x hx => hfs x (List.mem_cons_of_mem _ hx))
        (by simpa using hlast)]
      simp

theorem headerLineOk_headerText : headerLineOk headerText.toList = true := by decide

/-- C6 (amended): leading-field extraction is idempotent — every line
consisting of exactly 20 comma-separated fields (fields free of commas
and line feeds, the 20th also free of carriage returns) terminated by a
single newline is mapped to itself — and re-running normalization on the
expected header followed by normalization's own output emits the
identical cleaned lines.  (Feeding the headerless output directly back
into normalization instead fails the header check, see the
counterexample.) -/
theorem C6_idempotent_extraction :
    (∀ fields : List (List Char), fields.length = 20 →
        (∀ f ∈ fields, ',' ∉ f ∧ '\n' ∉ f) →
        (∀ c ∈ fields.getD 19 [], c ≠ '\r') →
        patternDataMatch (commaJoin fields ++ ['\n']) = some (commaJoin fields)) ∧
    (∀ lines out : List (List Char), readGreenTaxiCsv lines = .ok out →
        readGreenTaxiCsv (headerText.toList :: out) = .ok out) := by
  constructor
  · intro fields hlen hfs hlast
    rw [patternDataMatch, show HEADER.length - 1 = 19 from rfl]
    exact matchGroups_commaJoin 19 fields hlen hfs hlast
  · intro lines out h
    have hout : processData out = .ok out := by
      simp only [readGreenTaxiCsv] at h
      by_cases hh : headerLineOk (lines.headD []) = true
      · rw [if_pos hh, skipBlankThenData_eq_processData] at h
        exact processData_fixpoint h
      · rw [if_neg hh] at h
        exact absurd h (by simp)
    simp only [readGreenTaxiCsv, List.headD_cons, List.tail_cons]
    rw [if_pos headerLineOk_headerText]
    cases out with
    | nil => rfl
    | cons o out' =>
      have hrel : ∃ g, patternDataMatch o = some g ∧ o = g ++ ['\n'] := by
        cases processData_ok hout with
        | cons hrel _ => exact hrel
      rcases hrel with ⟨g, hg, ho⟩
      have hco : ',' ∈ o := by
        rw [ho]; exact List.mem_append_left _ (comma_mem_patternDataMatch hg)
      have hro : rstrip o ≠ [] := rstrip_ne_nil_of_comma_mem hco
      simp only [skipBlankThenData]
      rw [if_pos hro]
      exact hout

theorem C6_idempotent_extraction_witness :
    patternDataMatch (commaJoin (splitOnChar ','
        "2,2013-09-01 00:02:00,2013-09-01 00:54:51,N,1,0,0,0,0,5,.00,280,0,0.50,0,0,,280.50,1,1".toList) ++ ['\n']) =
      some (commaJoin (splitOnChar ','
        "2,2013-09-01 00:02:00,2013-09-01 00:54:51,N,1,0,0,0,0,5,.00,280,0,0.50,0,0,,280.50,1,1".toList)) ∧
    readGreenTaxiCsv (headerText.toList ::
        ["2,2013-09-01 00:02:00,2013-09-01 00:54:51,N,1,0,0,0,0,5,.00,280,0,0.50,0,0,,280.50,1,1\n".toList]) =
      .ok ["2,2013-09-01 00:02:00,2013-09-01 00:54:51,N,1,0,0,0,0,5,.00,280,0,0.50,0,0,,280.50,1,1\n".toList] :=
  ⟨C6_idempotent_extraction.1 _ (by decide) (by decide) (by decide),
   C6_idempotent_extraction.2
     [headerText.toList,
      "2,2013-09-01 00:02:00,2013-09-01 00:54:51,N,1,0,0,0,0,5,.00,280,0,0.50,0,0,,280.50,1,1,,,\n".toList]
     _ (by rfl)⟩

/-- C6 (counterexample): normalization's own output carries no header, so
running normalization directly over its own output does not emit the
cleaned lines again; it fails the header check on the first cleaned
line.  This refutes the claim's final clause as literally stated. -/
theorem C6_counterexample :
    readGreenTaxiCsv [headerText.toList,
        "2,2013-09-01 00:02:00,2013-09-01 00:54:51,N,1,0,0,0,0,5,.00,280,0,0.50,0,0,,280.50,1,1\n".toList] =
      .ok ["2,2013-09-01 00:02:00,2013-09-01 00:54:51,N,1,0,0,0,0,5,.00,280,0,0.50,0,0,,280.50,1,1\n".toList] ∧
    readGreenTaxiCsv ["2,2013-09-01 00:02:00,2013-09-01 00:54:51,N,1,0,0,0,0,5,.00,280,0,0.50,0,0,,280.50,1,1\n".toList] =
      .error (.invalidHeader
        "2,2013-09-01 00:02:00,2013-09-01 00:54:51,N,1,0,0,0,0,5,.00,280,0,0.50,0,0,,280.50,1,1\n".toList) :=
  ⟨by rfl, by rfl⟩

/-! ### Digit arithmetic lemmas -/

theorem isDig_cases {c : Char} (h : isDig c = true) :
    c = '0' ∨ c = '1' ∨ c = '2' ∨ c = '3' ∨ c = '4' ∨
    c = '5' ∨ c = '6' ∨ c = '7' ∨ c = '8' ∨ c = '9' := by
  simp only [isDig, Bool.or_eq_true, beq_iff_eq] at h
  tauto

theorem digitVal_lt_ten {c : Char} (h : isDig c = true) : digitVal c < 10 := by
  rcases isDig_cases h with rfl | rfl | rfl | rfl | rfl | rfl | rfl | rfl | rfl | rfl <;> decide

theorem digitChar_digitVal {c : Char} (h : isDig c = true) : digitChar (digitVal c) = c := by
  rcases isDig_cases h with rfl | rfl | rfl | rfl | rfl | rfl | rfl | rfl | rfl | rfl <;> rfl

theorem digitVal_digitChar {n : Nat} (h : n < 10) : digitVal (digitChar n) = n := by
  interval_cases n <;> rfl

theorem isDig_digitChar {n : Nat} (h : n < 10) : isDig (digitChar n) = true := by
  interval_cases n <;> rfl

theorem digitVal_pos {c : Char} (h : isDig c = true) (h0 : c ≠ '0') : 1 ≤ digitVal c := by
  rcases isDig_cases h with rfl | rfl | rfl | rfl | rfl | rfl | rfl | rfl | rfl | rfl
  · exact absurd rfl h0
  all_goals decide

theorem dot_not_mem_of_all_isDig {l : List Char} (h : ∀ c ∈ l, isDig c = true) :
    '.' ∉ l := by
  intro hm
  rcases isDig_cases (h _ hm) with h1 | h1 | h1 | h1 | h1 | h1 | h1 | h1 | h1 | h1 <;>
    exact absurd h1 (by decide)

theorem digitsToNat_append_digit (l : List Char) (c : Char) :
    digitsToNat (l ++ [c]) = 10 * digitsToNat l + digitVal c := by
  induction l with
  | nil => simp [digitsToNat]
  | cons d r ih =>
    simp only [List.cons_append, digitsToNat, ih, List.append_eq, List.length_append,
      List.length_singleton]
    ring

theorem digitsToNat_lt (l : List Char) (hd : ∀ c ∈ l, isDig c = true) :
    digitsToNat l < 10 ^ l.length := by
  induction l with
  | nil => simp [digitsToNat]
  | cons c r ih =>
    have ih := ih (fun x hx => hd x (List.mem_cons_of_mem _ hx))
    simp only [digitsToNat, List.length_cons]
    have hc : digitVal c ≤ 9 := by
      have := digitVal_lt_ten (hd c (List.mem_cons_self _ _))
      omega
    calc digitVal c * 10 ^ r.length + digitsToNat r
        < digitVal c * 10 ^ r.length + 10 ^ r.length := by omega
      _ = (digitVal c + 1) * 10 ^ r.length := by ring
      _ ≤ 10 * 10 ^ r.length := by
          have : digitVal c + 1 ≤ 10 := by omega
          exact Nat.mul_le_mul_right _ this
      _ = 10 ^ (r.length + 1) := by ring

theorem digitsToNat_cons_ge {d : Char} (r : List Char) (h : 1 ≤ digitVal d) :
    10 ^ r.length ≤ digitsToNat (d :: r) := by
  simp only [digitsToNat]
  calc 10 ^ r.length = 1 * 10 ^ r.length := (Nat.one_mul _).symm
    _ ≤ digitVal d * 10 ^ r.length := Nat.mul_le_mul_right _ h
    _ ≤ digitVal d * 10 ^ r.length + digitsToNat r := Nat.le_add_right _ _

theorem digitsToNat_replicate_zero (k : Nat) (l : List Char) :
    digitsToNat (List.replicate k '0' ++ l) = digitsToNat l := by
  induction k with
  | zero => simp
  | succ k ih =>
    rw [List.replicate_succ, List.cons_append]
    simp only [digitsToNat, ih]
    have : digitVal '0' = 0 := rfl
    simp [this]

theorem natToDigits_of_lt {n : Nat} (h : n < 10) : natToDigits n = [digitChar n] := by
  rw [natToDigits]
  exact dif_pos h

theorem natToDigits_of_ge {n : Nat} (h : ¬ n < 10) :
    natToDigits n = natToDigits (n / 10) ++ [digitChar (n % 10)] := by
  conv_lhs => rw [natToDigits]
  exact dif_neg h

/-- Printing the value of a canonical digit string (nonempty, digits only,
no leading zero except the string `0` itself) gives the string back. -/
theorem natToDigits_digitsToNat : ∀ l : List Char, l ≠ [] →
    (∀ c ∈ l, isDig c = true) → (l = ['0'] ∨ l.headD ' ' ≠ '0') →
    natToDigits (digitsToNat l) = l := by
  intro l
  induction l using List.reverseRecOn with
  | nil => intro h; exact absurd rfl h
  | append_singleton l c ih =>
    intro _ hd hcanon
    rcases l with _ | ⟨d, r⟩
    · have hc : isDig c = true := hd c (by simp)
      have hval : digitsToNat [c] = digitVal c := by simp [digitsToNat]
      rw [show ([] ++ [c] : List Char) = [c] from rfl, hval,
        natToDigits_of_lt (digitVal_lt_ten hc), digitChar_digitVal hc]
    · -- l = d :: r is nonempty, so the head of l ++ [c] is d and d ≠ '0'
      have hdne : d ≠ '0' := by
        rcases hcanon with hc1 | hc2
        · exact absurd (congrArg List.length hc1) (by simp)
        · simpa using hc2
      have hdd : isDig d = true := hd d (by simp)
      have hcd : isDig c = true := hd c (by simp)
      have hpos : 1 ≤ digitsToNat (d :: r) := by
        have := digitsToNat_cons_ge r (digitVal_pos hdd hdne)
        have hp : 1 ≤ 10 ^ r.length := Nat.one_le_pow r.length 10 (by omega)
        omega
      have hv : digitsToNat ((d :: r) ++ [c]) = 10 * digitsToNat (d :: r) + digitVal c :=
        digitsToNat_append_digit _ _
      have hge : ¬ digitsToNat ((d :: r) ++ [c]) < 10 := by
        rw [hv]
        have := digitVal_lt_ten hcd
        omega
      rw [natToDigits_of_ge hge]
      have hdiv : digitsToNat ((d :: r) ++ [c]) / 10 = digitsToNat (d :: r) := by
        rw [hv]
        have := digitVal_lt_ten hcd
        omega
      have hmod : digitsToNat ((d :: r) ++ [c]) % 10 = digitVal c := by
        rw [hv]
        have := digitVal_lt_ten hcd
        omega
      rw [hdiv, hmod, digitChar_digitVal hcd]
      rw [ih (by simp) (fun x hx => hd x (List.mem_append_left _ hx)) (Or.inr (by simpa using hdne))]

theorem natToDigits_length_le (n : Nat) :
    ∀ k, n < 10 ^ k → 1 ≤ k → (natToDigits n).length ≤ k := by
  induction n using Nat.strong_induction_on with
  | _ n ih =>
    intro k hn hk
    by_cases h : n < 10
    · rw [natToDigits_of_lt h]
      simpa using hk
    · rw [natToDigits_of_ge h, List.length_append, List.length_singleton]
      have h2 : 2 ≤ k := by
        rcases Nat.lt_or_ge k 2 with hlt | hge
        · have hk1 : k = 1 := by omega
          subst hk1
          simp only [pow_one] at hn
          omega
        · exact hge
      have hpow : 10 ^ k = 10 * 10 ^ (k - 1) := by
        conv_lhs => rw [show k = 1 + (k - 1) by omega]
        rw [pow_add, pow_one]
      have hdiv : n / 10 < 10 ^ (k - 1) := by
        rw [Nat.div_lt_iff_lt_mul (by omega : 0 < 10)]
        omega
      have := ih (n / 10) (Nat.div_lt_self (by omega) (by omega)) (k - 1) hdiv (by omega)
      omega

theorem dropWhile_head_not {α : Type} (p : α → Bool) :
    ∀ {l : List α} {d : α} {r : List α}, l.dropWhile p = d :: r → p d = false := by
  intro l
  induction l with
  | nil => intro d r h; simp [List.dropWhile] at h
  | cons c cl ih =>
    intro d r h
    by_cases hc : p c = true
    · rw [List.dropWhile_cons_of_pos hc] at h
      exact ih h
    · rw [List.dropWhile_cons_of_neg (by simpa using hc)] at h
      rcases List.cons.inj h with ⟨rfl, rfl⟩
      exact eq_false_of_ne_true hc

/-- Zero-padding the canonical digits of the value of a fixed-width digit
string restores the string, leading zeros included. -/
theorem leftPadZeros_natToDigits (fp : List Char) (s : Nat)
    (hd : ∀ c ∈ fp, isDig c = true) (hlen : fp.length = s) (hne : fp ≠ []) :
    leftPadZeros s (natToDigits (digitsToNat fp)) = fp := by
  have hsplit : fp.takeWhile (fun c => c == '0') ++ fp.dropWhile (fun c => c == '0') = fp :=
    List.takeWhile_append_dropWhile _ _
  have hzrep : fp.takeWhile (fun c => c == '0') =
      List.replicate (fp.takeWhile (fun c => c == '0')).length '0' :=
    List.eq_replicate_of_mem (fun b hb => by simpa using List.mem_takeWhile_imp hb)
  have hvfp : digitsToNat fp = digitsToNat (fp.dropWhile (fun c => c == '0')) := by
    conv_lhs => rw [← hsplit, hzrep]
    exact digitsToNat_replicate_zero _ _
  have hlen2 : (fp.takeWhile (fun c => c == '0')).length +
      (fp.dropWhile (fun c => c == '0')).length = s := by
    rw [← hlen]
    conv_rhs => rw [← hsplit]
    rw [List.length_append]
  have hs1 : 1 ≤ s := by
    rcases fp with _ | ⟨x, xs⟩
    · exact absurd rfl hne
    · rw [← hlen]; simp
  cases hc : fp.dropWhile (fun c => c == '0') with
  | nil =>
    have hzlen : (fp.takeWhile (fun c => c == '0')).length = s := by
      rw [hc] at hlen2
      simpa using hlen2
    have hfp0 : fp = List.replicate s '0' := by
      conv_lhs => rw [← hsplit, hc, List.append_nil, hzrep, hzlen]
    have hv0 : digitsToNat fp = 0 := by rw [hvfp, hc]; rfl
    rw [hv0, natToDigits_of_lt (by omega), hfp0]
    show List.replicate (s - 1) '0' ++ [digitChar 0] = List.replicate s '0'
    conv_rhs => rw [show s = (s - 1) + 1 by omega]
    rw [List.replicate_add]
    rfl
  | cons d core' =>
    have hdne : (d == '0') = false := dropWhile_head_not (fun c => c == '0') hc
    have hmemcore : ∀ c ∈ (d :: core'), isDig c = true := by
      intro c hcc
      apply hd
      rw [← hsplit]
      exact List.mem_append_right _ (hc ▸ hcc)
    have hcanon : natToDigits (digitsToNat (d :: core')) = d :: core' :=
      natToDigits_digitsToNat _ (by simp) hmemcore (Or.inr (by
        simp only [List.headD_cons]
        intro hh
        rw [hh] at hdne
        simp at hdne))
    rw [hvfp, hc, hcanon]
    show List.replicate (s - (d :: core').length) '0' ++ (d :: core') = fp
    have hzl : (fp.takeWhile (fun c => c == '0')).length = s - (d :: core').length := by
      rw [hc] at hlen2
      omega
    conv_rhs => rw [← hsplit, hzrep, hzl, hc]

/-- Evaluation of the decimal parser on a well-formed token. -/
theorem parseDecimalToken_eval (p s : Nat) (neg : Bool) (ip fp : List Char)
    (hipne : ip ≠ []) (hipd : ∀ c ∈ ip, isDig c = true)
    (hfpd : ∀ c ∈ fp, isDig c = true) (hfplen : fp.length ≤ s)
    (hprec : digitsToNat ip < 10 ^ (p - s)) :
    parseDecimalToken p s ((if neg then ['-'] else []) ++ ip ++ '.' :: fp) =
      some ((if neg then -1 else 1) *
        ((digitsToNat ip * 10 ^ s + digitsToNat fp * 10 ^ (s - fp.length) : Nat) : Int)) := by
  rcases ip with _ | ⟨d0, ip'⟩
  · exact absurd rfl hipne
  have hd0 : isDig d0 = true := hipd d0 (List.mem_cons_self _ _)
  have hd0ne : (d0 == '-') = false := by
    rcases isDig_cases hd0 with rfl|rfl|rfl|rfl|rfl|rfl|rfl|rfl|rfl|rfl <;> rfl
  have hdotip : '.' ∉ (d0 :: ip') := dot_not_mem_of_all_isDig hipd
  have hdotfp : '.' ∉ fp := dot_not_mem_of_all_isDig hfpd
  have hsplitbody : splitOnChar '.' ((d0 :: ip') ++ '.' :: fp) = [d0 :: ip', fp] := by
    rw [splitOnChar_append_sep fp hdotip, splitOnChar_of_not_mem hdotfp]
  have hcond : (d0 :: ip') ≠ [] ∧ (d0 :: ip').all isDig = true ∧ fp.all isDig = true ∧
      fp.length ≤ s ∧ digitsToNat (d0 :: ip') < 10 ^ (p - s) :=
    ⟨by simp, List.all_eq_true.mpr hipd, List.all_eq_true.mpr hfpd, hfplen, hprec⟩
  cases neg with
  | false =>
    simp only [Bool.false_eq_true, if_false, List.nil_append]
    simp only [parseDecimalToken, List.cons_append, List.headD_cons, hd0ne,
      Bool.false_eq_true, if_false]
    rw [show (d0 :: (ip' ++ '.' :: fp)) = (d0 :: ip') ++ '.' :: fp from rfl, hsplitbody]
    exact if_pos hcond
  | true =>
    simp only [if_true]
    simp only [parseDecimalToken, List.cons_append, List.headD_cons, beq_self_eq_true,
      if_true, List.tail_cons, List.nil_append]
    rw [show (d0 :: (ip' ++ '.' :: fp)) = (d0 :: ip') ++ '.' :: fp from rfl, hsplitbody]
    exact if_pos hcond

/-- C4: For every `Decimal(p, s)` token, the encoder reconstructs the
exact base-10 fixed-point value from the literal text with exactly `s`
fractional digits, never via binary floating point: for every precision
`p` and scale `s`, a cleaned decimal token with exactly `s` fractional
digits round-trips (decode then re-encode) to the identical digit
sequence, and in particular the token `-73.952407836914062` at scale 15
(the longitude columns' `Decimal(18, 15)`) decodes to exactly
`-73952407836914062 / 10^15`, i.e. to the scaled mantissa
`-73952407836914062`. -/
theorem C4_decimal_roundtrip :
    (∀ (p s : Nat) (neg : Bool) (ip fp : List Char),
        1 ≤ s →
        ip ≠ [] →
        (∀ c ∈ ip, isDig c = true) →
        (∀ c ∈ fp, isDig c = true) →
        fp.length = s →
        (ip = ['0'] ∨ ip.headD ' ' ≠ '0') →
        digitsToNat ip < 10 ^ (p - s) →
        (neg = true → ¬(digitsToNat ip = 0 ∧ digitsToNat fp = 0)) →
        ∃ m : Int,
          parseDecimalToken p s ((if neg then ['-'] else []) ++ ip ++ '.' :: fp) = some m ∧
          formatDecimal s m = (if neg then ['-'] else []) ++ ip ++ '.' :: fp) ∧
    parseDecimalToken 18 15 ("-73.952407836914062".toList) =
      some (-73952407836914062 : Int) := by
  constructor
  · intro p s neg ip fp hs1 hipne hipd hfpd hfplen hcanon hprec hnz
    rcases ip with _ | ⟨d0, ip'⟩
    · exact absurd rfl hipne
    have hfpne : fp ≠ [] := by
      intro hh
      rw [hh] at hfplen
      simp at hfplen
      omega
    have hb : digitsToNat fp < 10 ^ s := by
      have := digitsToNat_lt fp hfpd
      rwa [hfplen] at this
    have hdiv : (digitsToNat (d0 :: ip') * 10 ^ s + digitsToNat fp) / 10 ^ s
        = digitsToNat (d0 :: ip') := by
      rw [Nat.mul_comm (digitsToNat (d0 :: ip')) (10 ^ s),
        Nat.mul_add_div (Nat.pos_pow_of_pos s (by omega)),
        Nat.div_eq_of_lt hb, Nat.add_zero]
    have hmod : (digitsToNat (d0 :: ip') * 10 ^ s + digitsToNat fp) % 10 ^ s
        = digitsToNat fp := by
      rw [Nat.mul_comm (digitsToNat (d0 :: ip')) (10 ^ s), Nat.mul_add_mod]
      exact Nat.mod_eq_of_lt hb
    have hip : natToDigits (digitsToNat (d0 :: ip')) = d0 :: ip' :=
      natToDigits_digitsToNat _ (by simp) hipd hcanon
    have hfppad : leftPadZeros s (natToDigits (digitsToNat fp)) = fp :=
      leftPadZeros_natToDigits fp s hfpd hfplen hfpne
    have hparse := parseDecimalToken_eval p s neg (d0 :: ip') fp (by simp) hipd hfpd
      (by omega) hprec
    have hscale : digitsToNat fp * 10 ^ (s - fp.length) = digitsToNat fp := by
      rw [hfplen]
      simp
    rw [hscale] at hparse
    cases neg with
    | false =>
      refine ⟨((digitsToNat (d0 :: ip') * 10 ^ s + digitsToNat fp : Nat) : Int), ?_, ?_⟩
      · rw [hparse]; simp
      · show (if ((digitsToNat (d0 :: ip') * 10 ^ s + digitsToNat fp : Nat) : Int) < 0
            then ['-'] else []) ++
            natToDigits (((digitsToNat (d0 :: ip') * 10 ^ s + digitsToNat fp : Nat) : Int).natAbs / 10 ^ s) ++
            '.' :: leftPadZeros s
              (natToDigits (((digitsToNat (d0 :: ip') * 10 ^ s + digitsToNat fp : Nat) : Int).natAbs % 10 ^ s)) =
            (if false then ['-'] else []) ++ (d0 :: ip') ++ '.' :: fp
        rw [if_neg (by omega), Int.natAbs_ofNat, hdiv, hmod, hip, hfppad]
        simp
    | true =>
      have hNpos : 0 < digitsToNat (d0 :: ip') * 10 ^ s + digitsToNat fp := by
        rcases Nat.eq_zero_or_pos (digitsToNat (d0 :: ip')) with ha | ha
        · have hb0 : digitsToNat fp ≠ 0 := fun hb0 => (hnz rfl) ⟨ha, hb0⟩
          rw [ha, Nat.zero_mul, Nat.zero_add]
          omega
        · have h1 : 0 < 10 ^ s := Nat.pos_pow_of_pos s (by omega)
          have := Nat.mul_pos ha h1
          omega
      refine ⟨-((digitsToNat (d0 :: ip') * 10 ^ s + digitsToNat fp : Nat) : Int), ?_, ?_⟩
      · rw [hparse]; simp
      · show (if -((digitsToNat (d0 :: ip') * 10 ^ s + digitsToNat fp : Nat) : Int) < 0
            then ['-'] else []) ++
            natToDigits ((-((digitsToNat (d0 :: ip') * 10 ^ s + digitsToNat fp : Nat) : Int)).natAbs / 10 ^ s) ++
            '.' :: leftPadZeros s
              (natToDigits ((-((digitsToNat (d0 :: ip') * 10 ^ s + digitsToNat fp : Nat) : Int)).natAbs % 10 ^ s)) =
            (if true then ['-'] else []) ++ (d0 :: ip') ++ '.' :: fp
        rw [if_pos (by omega), Int.natAbs_neg, Int.natAbs_ofNat, hdiv, hmod, hip, hfppad]
        simp
  · decide

theorem C4_decimal_roundtrip_witness :
    (∃ m : Int,
      parseDecimalToken 18 15
          ((if true then ['-'] else []) ++ "73".toList ++ '.' :: "952407836914062".toList) =
        some m ∧
      formatDecimal 15 m =
        (if true then ['-'] else []) ++ "73".toList ++ '.' :: "952407836914062".toList) ∧
    (∃ m : Int,
      parseDecimalToken 6 2
          ((if false then ['-'] else []) ++ "0".toList ++ '.' :: "50".toList) = some m ∧
      formatDecimal 2 m =
        (if false then ['-'] else []) ++ "0".toList ++ '.' :: "50".toList) :=
  ⟨C4_decimal_roundtrip.1 18 15 true "73".toList "952407836914062".toList (by decide)
      (by decide) (by decide) (by decide) (by decide) (by decide) (by decide) (by decide),
   C4_decimal_roundtrip.1 6 2 false "0".toList "50".toList (by decide)
      (by decide) (by decide) (by decide) (by decide) (by decide) (by decide) (by decide)⟩

/-! ### Timestamp conversion -/

theorem isDig_digitChar_mod (n : Nat) : isDig (digitChar (n % 10)) = true :=
  isDig_digitChar (Nat.mod_lt _ (by omega))

theorem digitVal_digitChar_mod (n : Nat) : digitVal (digitChar (n % 10)) = n % 10 :=
  digitVal_digitChar (Nat.mod_lt _ (by omega))

theorem daysInMonth_le (y m : Nat) : daysInMonth y m ≤ 31 := by
  unfold daysInMonth
  split
  · split <;> omega
  · split <;> omega

theorem parseTsToken_formatTs (y mo da ho mi se : Nat)
    (hy : y < 10000) (hmo1 : 1 ≤ mo) (hmo12 : mo ≤ 12)
    (hda1 : 1 ≤ da) (hdam : da ≤ daysInMonth y mo)
    (hho : ho ≤ 23) (hmi : mi ≤ 59) (hse : se ≤ 59) :
    parseTsToken (formatTs y mo da ho mi se) = some ⟨y, mo, da, ho, mi, se⟩ := by
  have hvy : val4 (digitChar (y / 1000 % 10)) (digitChar (y / 100 % 10))
      (digitChar (y / 10 % 10)) (digitChar (y % 10)) = y := by
    simp only [val4, digitVal_digitChar_mod]
    omega
  have hvmo : val2 (digitChar (mo / 10 % 10)) (digitChar (mo % 10)) = mo := by
    simp only [val2, digitVal_digitChar_mod]
    omega
  have hvda : val2 (digitChar (da / 10 % 10)) (digitChar (da % 10)) = da := by
    have h31 := daysInMonth_le y mo
    simp only [val2, digitVal_digitChar_mod]
    omega
  have hvho : val2 (digitChar (ho / 10 % 10)) (digitChar (ho % 10)) = ho := by
    simp only [val2, digitVal_digitChar_mod]
    omega
  have hvmi : val2 (digitChar (mi / 10 % 10)) (digitChar (mi % 10)) = mi := by
    simp only [val2, digitVal_digitChar_mod]
    omega
  have hvse : val2 (digitChar (se / 10 % 10)) (digitChar (se % 10)) = se := by
    simp only [val2, digitVal_digitChar_mod]
    omega
  simp only [formatTs, pad4, pad2, List.cons_append, List.nil_append]
  simp only [parseTsToken]
  rw [if_pos (by simp [isDig_digitChar_mod])]
  rw [if_pos (by
    simp only [Bool.and_eq_true, decide_eq_true_eq, hvy, hvmo, hvda, hvho, hvmi, hvse]
    omega)]
  rw [hvy, hvmo, hvda, hvho, hvmi, hvse]

/-- C5: For every non-empty `TimestampLocal` token, the encoder parses it
with pattern `YYYY-MM-DD HH:MM:SS` as a wall-clock time in the
America/New_York timezone and stores the instant normalized to UTC at
second precision (the naive reading shifted by the New York offset, 4 h
in daylight saving, 5 h otherwise); an empty token yields null.  The
concrete token `2013-09-01 00:00:00` (New York, daylight saving) is
stored as the UTC instant `1378008000 = 2013-09-01T04:00:00Z`. -/
theorem C5_timestamp_utc :
    (convertCell .timestampLocal [] = some none) ∧
    (∀ y mo da ho mi se : Nat,
        y < 10000 → 1 ≤ mo → mo ≤ 12 → 1 ≤ da → da ≤ daysInMonth y mo →
        ho ≤ 23 → mi ≤ 59 → se ≤ 59 →
        convertCell .timestampLocal (formatTs y mo da ho mi se) =
          some (some (.tsV (naiveSecs ⟨y, mo, da, ho, mi, se⟩ +
            nyOffsetSecs ⟨y, mo, da, ho, mi, se⟩)))) ∧
    convertCell .timestampLocal ("2013-09-01 00:00:00".toList) =
      some (some (.tsV 1378008000)) := by
  refine ⟨rfl, ?_, by decide⟩
  intro y mo da ho mi se hy hmo1 hmo12 hda1 hdam hho hmi hse
  have hne : formatTs y mo da ho mi se ≠ [] := by
    simp [formatTs, pad4]
  have hparse := parseTsToken_formatTs y mo da ho mi se hy hmo1 hmo12 hda1 hdam hho hmi hse
  simp only [convertCell, if_neg hne, hparse]
  rfl

theorem C5_timestamp_utc_witness :
    convertCell .timestampLocal (formatTs 2013 9 1 0 0 0) =
      some (some (.tsV (naiveSecs ⟨2013, 9, 1, 0, 0, 0⟩ +
        nyOffsetSecs ⟨2013, 9, 1, 0, 0, 0⟩))) :=
  C5_timestamp_utc.2.1 2013 9 1 0 0 0 (by decide) (by decide) (by decide) (by decide)
    (by decide) (by decide) (by decide) (by decide)

/-! ### Encoder: typing and completeness -/

theorem parseDecimalToken_bound {p s : Nat} {tok : List Char} {m : Int}
    (hps : s ≤ p) (h : parseDecimalToken p s tok = some m) : m.natAbs < 10 ^ p := by
  have hbound : ∀ (neg : Bool) (a b k : Nat), a < 10 ^ (p - s) → b < 10 ^ k → k ≤ s →
      (((if neg then -1 else 1) * ((a * 10 ^ s + b * 10 ^ (s - k) : Nat) : Int)).natAbs < 10 ^ p) := by
    intro neg a b k ha hb hk
    have habs : ((if neg then -1 else 1) * ((a * 10 ^ s + b * 10 ^ (s - k) : Nat) : Int)).natAbs
        = a * 10 ^ s + b * 10 ^ (s - k) := by
      cases neg
      · rw [if_neg (by simp), one_mul, Int.natAbs_ofNat]
      · rw [if_pos rfl, neg_one_mul, Int.natAbs_neg, Int.natAbs_ofNat]
    rw [habs]
    have hb' : b * 10 ^ (s - k) < 10 ^ k * 10 ^ (s - k) :=
      mul_lt_mul_of_pos_right hb (Nat.pos_pow_of_pos _ (by omega))
    have hpow1 : 10 ^ k * 10 ^ (s - k) = 10 ^ s := by
      rw [← pow_add]
      congr 1
      omega
    have hstep : a * 10 ^ s + b * 10 ^ (s - k) < (a + 1) * 10 ^ s := by
      have : b * 10 ^ (s - k) < 10 ^ s := hpow1 ▸ hb'
      calc a * 10 ^ s + b * 10 ^ (s - k) < a * 10 ^ s + 10 ^ s := by omega
        _ = (a + 1) * 10 ^ s := by ring
    have hfin : (a + 1) * 10 ^ s ≤ 10 ^ (p - s) * 10 ^ s :=
      Nat.mul_le_mul_right _ (by omega)
    have hpow2 : 10 ^ (p - s) * 10 ^ s = 10 ^ p := by
      rw [← pow_add]
      congr 1
      omega
    omega
  simp only [parseDecimalToken] at h
  split at h
  · split at h
    · rename_i hcond
      rcases Option.some.inj h with rfl
      rename_i ipx fpx hm
      exact hbound _ _ _ fpx.length hcond.2.2.2.2
        (digitsToNat_lt fpx (List.all_eq_true.mp hcond.2.2.1)) hcond.2.2.2.1
    · exact absurd h (by simp)
  · split at h
    · rename_i hcond
      rcases Option.some.inj h with rfl
      rename_i ipx hm
      have := hbound (tok.headD ' ' == '-') (digitsToNat ipx) 0 0 hcond.2.2
        (by simp) (by omega)
      simpa using this
    · exact absurd h (by simp)
  · exact absurd h (by simp)

theorem convertCell_wellTyped {t : LType} {tok : List Char} {ov : Option Value}
    (hdec : ∀ p s, t = .decimalType p s → s ≤ p)
    (h : convertCell t tok = some ov) : wellTyped t ov := by
  by_cases htok : tok = []
  · rw [htok] at h
    have : ov = none := by
      simpa [convertCell] using h.symm
    subst this
    cases t <;> exact trivial
  · cases t with
    | boolType =>
      simp only [convertCell, if_neg htok] at h
      by_cases hY : tok = ['Y']
      · rw [if_pos hY] at h
        rcases Option.some.inj h with rfl
        exact ⟨true, rfl⟩
      · rw [if_neg hY] at h
        by_cases hN : tok = ['N']
        · rw [if_pos hN] at h
          rcases Option.some.inj h with rfl
          exact ⟨false, rfl⟩
        · rw [if_neg hN] at h
          exact absurd h (by simp)
    | smallint =>
      simp only [convertCell, if_neg htok] at h
      cases hpi : parseIntToken tok with
      | none =>
        rw [hpi] at h
        have h2 : (none : Option (Option Value)) = some ov := h
        exact absurd h2 (by simp)
      | some v =>
        rw [hpi] at h
        have h2 : (if -32768 ≤ v ∧ v ≤ 32767 then some (some (Value.intV v)) else none)
            = some ov := h
        by_cases hrange : -32768 ≤ v ∧ v ≤ 32767
        · rw [if_pos hrange] at h2
          rcases Option.some.inj h2 with rfl
          exact ⟨v, rfl, hrange.1, hrange.2⟩
        · rw [if_neg hrange] at h2
          exact absurd h2 (by simp)
    | timestampLocal =>
      simp only [convertCell, if_neg htok] at h
      cases hpt : parseTsToken tok with
      | none =>
        rw [hpt] at h
        have h2 : (none : Option (Option Value)) = some ov := h
        exact absurd h2 (by simp)
      | some f =>
        rw [hpt] at h
        have h2 : some (some (Value.tsV (utcOfNY f))) = some ov := h
        rcases Option.some.inj h2 with rfl
        exact ⟨utcOfNY f, rfl⟩
    | decimalType p s =>
      simp only [convertCell, if_neg htok] at h
      cases hpd : parseDecimalToken p s tok with
      | none =>
        rw [hpd] at h
        have h2 : (none : Option (Option Value)) = some ov := h
        exact absurd h2 (by simp)
      | some m =>
        rw [hpd] at h
        have h2 : some (some (Value.decV m)) = some ov := h
        rcases Option.some.inj h2 with rfl
        exact ⟨m, rfl, parseDecimalToken_bound (hdec p s rfl) hpd⟩

theorem encodeCells_ok :
    ∀ {row : Nat} {sch : List (String × LType)} {toks : List (List Char)}
      {vals : List (Option Value)},
      encodeCells row sch toks = .ok vals →
      (∀ nt ∈ sch, ∀ p s, nt.2 = LType.decimalType p s → s ≤ p) →
      vals.length = sch.length ∧
        List.Forall₂ (fun (nt : String × LType) v => wellTyped nt.2 v) sch vals := by
  intro row sch
  induction sch generalizing row with
  | nil =>
    intro toks vals h _
    cases toks with
    | nil =>
      simp only [encodeCells, Except.ok.injEq] at h
      subst h
      exact ⟨rfl, List.Forall₂.nil⟩
    | cons tok toks' => simp [encodeCells] at h
  | cons nt sch' ih =>
    intro toks vals h hdec
    rcases nt with ⟨nm, t⟩
    cases toks with
    | nil => simp [encodeCells] at h
    | cons tok toks' =>
      simp only [encodeCells] at h
      cases hc : convertCell t tok with
      | none => rw [hc] at h; simp at h
      | some v =>
        rw [hc] at h
        cases he : encodeCells row sch' toks' with
        | error e => rw [he] at h; simp [Except.map] at h
        | ok rest =>
          rw [he] at h
          simp only [Except.map, Except.ok.injEq] at h
          subst h
          have hw : wellTyped t v :=
            convertCell_wellTyped (fun p s hts => hdec (nm, t) (List.mem_cons_self _ _) p s hts) hc
          have := ih he (fun x hx => hdec x (List.mem_cons_of_mem _ hx))
          exact ⟨by simpa using this.1, List.Forall₂.cons hw this.2⟩

theorem schema_scales_le :
    ∀ nt ∈ SCHEMA, ∀ p s, nt.2 = LType.decimalType p s → s ≤ p := by
  intro nt hnt
  fin_cases hnt <;> intro p s h <;> cases h <;> omega

theorem encodeAllRows_ok :
    ∀ {row : Nat} {ls : List (List Char)} {rs : List (List (Option Value))},
      encodeAllRows row ls = .ok rs →
      ∀ r ∈ rs, r.length = 20 ∧
        List.Forall₂ (fun (nt : String × LType) v => wellTyped nt.2 v) SCHEMA r := by
  intro row ls
  induction ls generalizing row with
  | nil =>
    intro rs h r hr
    simp only [encodeAllRows, Except.ok.injEq] at h
    subst h
    simp at hr
  | cons l ls' ih =>
    intro rs h r hr
    simp only [encodeAllRows] at h
    cases her : encodeRow row l with
    | error e => rw [her] at h; simp at h
    | ok r0 =>
      rw [her] at h
      cases hall : encodeAllRows (row + 1) ls' with
      | error e => rw [hall] at h; simp [Except.map] at h
      | ok rest =>
        rw [hall] at h
        simp only [Except.map, Except.ok.injEq] at h
        subst h
        have hr0 : r0.length = 20 ∧
            List.Forall₂ (fun (nt : String × LType) v => wellTyped nt.2 v) SCHEMA r0 := by
          simp only [encodeRow] at her
          split at her
          · have := encodeCells_ok her schema_scales_le
            exact ⟨by simpa using this.1, this.2⟩
          · exact absurd her (by simp)
        rcases List.mem_cons.mp hr with rfl | hr'
        · exact hr0
        · exact ih hall r hr'

theorem parseGreenTaxiCsv_ok {cleaned : List (List Char)} {t : ColumnarTable}
    (h : parseGreenTaxiCsv cleaned = .ok t) :
    t.names = SCHEMA.map Prod.fst ∧
      ∃ rs, encodeAllRows 0 cleaned = .ok rs ∧ t.rows = rs := by
  simp only [parseGreenTaxiCsv] at h
  cases he : encodeAllRows 0 cleaned with
  | error e => rw [he] at h; simp [Except.map] at h
  | ok rs =>
    rw [he] at h
    simp only [Except.map, Except.ok.injEq] at h
    subst h
    exact ⟨rfl, rs, rfl, rfl⟩

/-- C7: For every `Bool` column token, the encoder maps `"Y"` to true,
`"N"` to false, and the empty token to null, and fails with a conversion
error on any other token, including the lowercase `"y"` (shown also at
table level: a cleaned line whose `Store_and_fwd_flag` field is `y`
aborts the encoding with a `ConversionError` naming the column, the row
index and the raw token). -/
theorem C7_bool_tokens :
    convertCell .boolType ['Y'] = some (some (.boolV true)) ∧
    convertCell .boolType ['N'] = some (some (.boolV false)) ∧
    convertCell .boolType [] = some none ∧
    (∀ tok : List Char, tok ≠ [] → tok ≠ ['Y'] → tok ≠ ['N'] →
      convertCell .boolType tok = none) ∧
    parseGreenTaxiCsv ["2,,,y,,,,,,,,,,,,,,,,\n".toList] =
      .error (.conversionError "Store_and_fwd_flag" 0 ['y']) := by
  refine ⟨rfl, rfl, rfl, ?_, by rfl⟩
  intro tok hne hY hN
  simp only [convertCell, if_neg hne, if_neg hY, if_neg hN]

theorem C7_bool_tokens_witness :
    convertCell .boolType ['y'] = none :=
  C7_bool_tokens.2.2.2.1 ['y'] (by decide) (by decide) (by decide)

/-- C8: For every input, if any `InvalidHeader`, `InvalidData`, or
conversion error occurs anywhere in the run, no table is produced at all
and partial output is discarded: either a complete, fully-typed 20-column
table is handed to the caller — every row has exactly 20 cells, each
cell conforming to its column's declared logical type — or none is; there
is no partial-success mode and no short table. -/
theorem C8_all_or_nothing (lines : List (List Char)) :
    (∃ e, runPipeline lines = .error e) ∨
    (∃ t, runPipeline lines = .ok t ∧ t.names.length = 20 ∧
      ∀ r ∈ t.rows, r.length = 20 ∧
        List.Forall₂ (fun (nt : String × LType) v => wellTyped nt.2 v) SCHEMA r) := by
  cases hr : readGreenTaxiCsv lines with
  | error e =>
    exact Or.inl ⟨.readErr e, by simp [runPipeline, hr]⟩
  | ok cleaned =>
    cases hp : parseGreenTaxiCsv cleaned with
    | error e =>
      exact Or.inl ⟨.parseErr e, by simp [runPipeline, hr, hp]⟩
    | ok t =>
      refine Or.inr ⟨t, by simp [runPipeline, hr, hp], ?_, ?_⟩
      · rw [(parseGreenTaxiCsv_ok hp).1]
        rfl
      · rcases (parseGreenTaxiCsv_ok hp).2 with ⟨rs, hrs, hteq⟩
        rw [hteq]
        exact encodeAllRows_ok hrs

/-- C10: The output table's column names come from the schema, not from
the validated header: for every successful run the third column (the
second timestamp column) is named `lpep_dropoff_datetime` in the produced
table even though the header the normalizer requires spells it
`Lpep_dropoff_datetime`; the other 19 names equal the header names
exactly and keep header order. -/
theorem C10_schema_names (cleaned : List (List Char)) (t : ColumnarTable)
    (h : parseGreenTaxiCsv cleaned = .ok t) :
    t.names = SCHEMA.map Prod.fst ∧
    t.names.get? 2 = some "lpep_dropoff_datetime" ∧
    HEADER.get? 2 = some "Lpep_dropoff_datetime" ∧
    ∀ i, i < 20 → i ≠ 2 → t.names.get? i = HEADER.get? i := by
  have hn : t.names = SCHEMA.map Prod.fst := (parseGreenTaxiCsv_ok h).1
  refine ⟨hn, by rw [hn]; rfl, rfl, ?_⟩
  intro i h1 h2
  rw [hn]
  revert h2 h1
  revert i
  decide

theorem C10_schema_names_witness :
    (⟨SCHEMA.map Prod.fst, []⟩ : ColumnarTable).names = SCHEMA.map Prod.fst ∧
    (⟨SCHEMA.map Prod.fst, []⟩ : ColumnarTable).names.get? 2 = some "lpep_dropoff_datetime" ∧
    HEADER.get? 2 = some "Lpep_dropoff_datetime" ∧
    ∀ i, i < 20 → i ≠ 2 →
      (⟨SCHEMA.map Prod.fst, []⟩ : ColumnarTable).names.get? i = HEADER.get? i :=
  C10_schema_names [] ⟨SCHEMA.map Prod.fst, []⟩ (by rfl)

end GreenTaxi
